import Mathlib

/-!
Verification of the event-to-calendar-vocabulary aggregation pipeline of
`latent_calendar` (file `src/latent_calendar/transformers.py`) against its
natural-language specification.

The embedding is shallow: each pipeline stage of the Python source is
translated into an executable Lean definition.  Machine floating-point
values (fractional hours) are modelled as exact rationals `ℚ`; dataframe
columns become functions of row records; stateful sklearn transformers
become pure functions of their configuration and input.

A few names (`create_full_vocab`, the day-length constants) live in
`latent_calendar/const.py`, which is not part of the provided sources;
those definitions are modelled from the specification and are marked
`Modelled from the spec:` in their doc comments.
-/

/-! Section: Day-length constants

Modelled from the spec: the constants `HOURS_IN_DAY`, `MINUTES_IN_DAY`,
`SECONDS_IN_DAY`, `MICROSECONDS_IN_DAY`, `DAYS_IN_WEEK` are imported by
`transformers.py` from `latent_calendar.const`, a module missing from
`src/`.  Spec §4.2 fixes their values through the formula
`(hour/24) + (minute/1440) + (second/86400) + (microsecond/86_400_000_000)`
and §3 fixes 7 days per week. -/

def HOURS_IN_DAY : ℕ := 24

def MINUTES_IN_DAY : ℕ := 1440

def SECONDS_IN_DAY : ℕ := 86400

def MICROSECONDS_IN_DAY : ℕ := 86400000000

def DAYS_IN_WEEK : ℕ := 7

/-- A timestamp, reduced to the fields the pipeline reads: the native
weekday number (1 = Monday .. 7 = Sunday, as returned by `dt.weekday()`
in narwhals) and the time-of-day components. -/
structure Timestamp where
  weekday : ℕ
  hour : ℕ
  minute : ℕ
  second : ℕ
  microsecond : ℕ
deriving DecidableEq, Repr

/-- A timestamp whose fields are in their calendar ranges. -/
def Timestamp.Valid (t : Timestamp) : Prop :=
  1 ≤ t.weekday ∧ t.weekday ≤ 7 ∧ t.hour ≤ 23 ∧ t.minute ≤ 59 ∧
    t.second ≤ 59 ∧ t.microsecond ≤ 999999

instance (t : Timestamp) : Decidable t.Valid := by
  unfold Timestamp.Valid; infer_instance

/-- Model of `prop_into_day` (transformers.py lines 34-62): proportion into the day,
`hour/HOURS_IN_DAY + minute/MINUTES_IN_DAY + second/SECONDS_IN_DAY +
microsecond/MICROSECONDS_IN_DAY`, evaluated per row on the timestamp
column. -/
def prop_into_day (t : Timestamp) : ℚ :=
  (t.hour : ℚ) / HOURS_IN_DAY + (t.minute : ℚ) / MINUTES_IN_DAY +
    (t.second : ℚ) / SECONDS_IN_DAY + (t.microsecond : ℚ) / MICROSECONDS_IN_DAY

/-- Row-level value of the `day_of_week` column created by
`create_timestamp_features` (line 69): `col.dt.weekday() - 1`. -/
def day_of_week_of (t : Timestamp) : ℤ :=
  (t.weekday : ℤ) - 1

/-- Row-level value of the `hour` column created by
`create_timestamp_features` (line 73): `prop_into_day(col.dt) * HOURS_IN_DAY`. -/
def hour_of (t : Timestamp) : ℚ :=
  prop_into_day t * HOURS_IN_DAY

/-- The `divisor` of `create_discretized_hour` / `HourDiscretizer.divisor`
(lines 126 and 162-163): `1 if minutes == 60 else minutes / 60`. -/
def divisor (minutes : ℕ) : ℚ :=
  if minutes = 60 then 1 else (minutes : ℚ) / 60

/-- Casting a machine float to `Int64` truncates toward zero; this is the
value-level meaning of `col.cast(nw.Int64)` on line 133. -/
def truncInt (q : ℚ) : ℤ :=
  if q < 0 then -⌊-q⌋ else ⌊q⌋

/-- Model of `create_discretized_hour` (lines 121-137), acting on one cell of the
`hour` column: floor-divide by `divisor` (`(col // divisor) * divisor`),
and when `minutes % 60 == 0` cast the result to an integer column
(`col.cast(nw.Int64)`). -/
def create_discretized_hour (minutes : ℕ) (v : ℚ) : ℚ :=
  if minutes % 60 = 0 then
    ((truncInt ((⌊v / divisor minutes⌋ : ℚ) * divisor minutes) : ℤ) : ℚ)
  else
    (⌊v / divisor minutes⌋ : ℚ) * divisor minutes

/-- Decimal string of an integer, the value-level meaning of
`cast(nw.String)` on an integer column (lines 193-194, 200-201). -/
def intStr (v : ℤ) : String :=
  if v < 0 then "-" ++ Nat.repr v.natAbs else Nat.repr v.toNat

/-- The conditional zero-padding used by `create_vocab` (lines 191-202):
`when(col < 10) then concat_str(["0", cast(String)]) otherwise cast(String)`. -/
def pad_two_conditional (v : ℤ) : String :=
  if v < 10 then "0" ++ intStr v else intStr v

/-- Model of `create_vocab` (lines 177-206), acting on one row with integer
`day_of_week` and (discretized) `hour` values: the two conditionally
padded fields joined with a single-space separator. -/
def create_vocab (day_of_week hour : ℤ) : String :=
  pad_two_conditional day_of_week ++ " " ++ pad_two_conditional hour

/-- Python/narwhals `str.zfill(width)`: left-pad with `"0"` up to `width`,
keeping a leading sign in front.  This is the primitive the code comment
(lines 186-188) declares `pad_two_conditional` equivalent to, and the
"zero-padding to width 2" of spec §4.4. -/
def str_zfill (s : String) (width : ℕ) : String :=
  if width ≤ s.length then s
  else if s.startsWith "-" ∨ s.startsWith "+" then
    (s.take 1) ++ String.mk (List.replicate (width - s.length) '0') ++ (s.drop 1)
  else
    String.mk (List.replicate (width - s.length) '0') ++ s

/-! Section: Claims C4, C5, C6, C10 -/

/-- The divisor equals `minutes / 60` in every branch (for `minutes = 60`
the `1` of the special case coincides with `60 / 60`). -/
theorem divisor_eq (minutes : ℕ) : divisor minutes = (minutes : ℚ) / 60 := by
  unfold divisor
  split
  · subst_vars; norm_num
  · rfl

theorem truncInt_intCast (n : ℤ) : truncInt ((n : ℤ) : ℚ) = n := by
  unfold truncInt
  split
  · rw [← Int.cast_neg, Int.floor_intCast]; ring
  · rw [Int.floor_intCast]

/-- When `minutes % 60 = 0` the value `⌊v / divisor⌋ * divisor` is already
an integer, so the `Int64` cast does not change it: on every input the
discretizer computes exactly `⌊v / divisor⌋ * divisor`. -/
theorem create_discretized_hour_eq_floor_mul (minutes : ℕ) (v : ℚ) :
    create_discretized_hour minutes v =
      (⌊v / divisor minutes⌋ : ℚ) * divisor minutes := by
  unfold create_discretized_hour
  split
  · next hmod =>
    rcases Nat.dvd_of_mod_eq_zero hmod with ⟨k, hk⟩
    have hdiv : divisor minutes = ((k : ℤ) : ℚ) := by
      rw [divisor_eq, hk]
      push_cast
      ring
    rw [hdiv, show (⌊v / ((k : ℤ) : ℚ)⌋ : ℚ) * ((k : ℤ) : ℚ) =
        (((⌊v / ((k : ℤ) : ℚ)⌋ * k : ℤ) : ℤ) : ℚ) by push_cast; ring,
      truncInt_intCast]
  · rfl

/-- C4: for every hour value `v ∈ [0, 24)` and every `minutes ≥ 1`, the
hour discretizer replaces `v` by `⌊v / divisor⌋ * divisor` with
`divisor = 1` if `minutes = 60` else `minutes / 60`; for `minutes = 60`
the output is an integer in `0..23`, and for `minutes = 120` the value
`v = 3` is collapsed to `2`. -/
theorem C4_discretizer_floor (minutes : ℕ) (v : ℚ)
    (h1 : 1 ≤ minutes) (h0 : 0 ≤ v) (h24 : v < 24) :
    create_discretized_hour minutes v =
        (⌊v / divisor minutes⌋ : ℚ) * divisor minutes ∧
      (minutes = 60 → ∃ n : ℕ, n ≤ 23 ∧ create_discretized_hour minutes v = (n : ℚ)) ∧
      create_discretized_hour 120 3 = 2 := by
  refine ⟨create_discretized_hour_eq_floor_mul minutes v, ?_, by with_unfolding_all decide⟩
  intro h60
  subst h60
  have hfloor0 : 0 ≤ ⌊v⌋ := Int.floor_nonneg.mpr h0
  have hfloor24 : ⌊v⌋ < 24 := by
    have : (24 : ℚ) = ((24 : ℤ) : ℚ) := by norm_num
    exact Int.floor_lt.mpr (by rw [← this]; exact h24)
  refine ⟨⌊v⌋.toNat, by omega, ?_⟩
  rw [create_discretized_hour_eq_floor_mul]
  have hdiv : divisor 60 = 1 := by unfold divisor; simp
  rw [hdiv]
  rw [div_one, mul_one]
  congr 1
  omega

/-- Witness for C4 at `minutes = 60`, `v = 5/2`. -/
theorem C4_discretizer_floor_witness :
    (1 ≤ 60 ∧ (0 : ℚ) ≤ 5/2 ∧ (5/2 : ℚ) < 24) ∧
      create_discretized_hour 60 (5/2) =
        (⌊(5/2 : ℚ) / divisor 60⌋ : ℚ) * divisor 60 :=
  ⟨⟨by decide, by norm_num, by norm_num⟩,
    (C4_discretizer_floor 60 (5/2) (by decide) (by norm_num) (by norm_num)).1⟩

/-- C5 counterexample: `minutes = 15` is a divisor of 60, but the
discretizer does not cast to an integer type there: on input `13/4` the
output value is `13/4`, which is not an integer, so no integer cast
happened (the code only special-cases `minutes % 60 == 0`). -/
theorem C5_counterexample :
    (15 ∣ 60) ∧ create_discretized_hour 15 (13/4) = 13/4 ∧
      ∀ n : ℤ, create_discretized_hour 15 (13/4) ≠ ((n : ℤ) : ℚ) := by
  refine ⟨by decide, by with_unfolding_all decide, ?_⟩
  intro n h
  rw [show create_discretized_hour 15 (13/4) = 13/4 by with_unfolding_all decide] at h
  have hden : ((13/4 : ℚ)).den = ((n : ℚ)).den := by rw [h]
  rw [Rat.den_intCast] at hden
  norm_num at hden

/-- C5 (amended): the discretizer casts the column to an integer type
exactly when `minutes % 60 == 0` (i.e. `minutes` is a *multiple* of 60),
in which case every output value is an integer; divisors of 60 other than
60 itself are not cast, e.g. `minutes = 15` leaves fractional bin starts
such as `1.5` and `3.25`. -/
theorem C5_cast_iff_multiple_of_60 (minutes : ℕ) (v : ℚ)
    (hmod : minutes % 60 = 0) :
    (∃ n : ℤ, create_discretized_hour minutes v = ((n : ℤ) : ℚ)) ∧
      create_discretized_hour 15 (3/2) = 3/2 ∧
      create_discretized_hour 15 (13/4) = 13/4 := by
  refine ⟨?_, by with_unfolding_all decide, by with_unfolding_all decide⟩
  unfold create_discretized_hour
  rw [if_pos hmod]
  exact ⟨_, rfl⟩

/-- Witness for the amended C5 at `minutes = 120`, `v = 5`. -/
theorem C5_cast_iff_multiple_of_60_witness :
    (120 % 60 = 0) ∧
      (∃ n : ℤ, create_discretized_hour 120 5 = ((n : ℤ) : ℚ)) :=
  ⟨by decide, (C5_cast_iff_multiple_of_60 120 5 (by decide)).1⟩

/-- C6: for integer `day_of_week ∈ 0..6` and integer discretized hour in
`0..23`, `create_vocab` produces the token obtained by zero-padding each
value to width 2 and joining with a single space; in particular
`day_of_week = 4, hour = 13` yields `"04 13"`. -/
theorem C6_vocab_token_format :
    (∀ d h : ℤ, 0 ≤ d → d ≤ 6 → 0 ≤ h → h ≤ 23 →
        create_vocab d h = str_zfill (intStr d) 2 ++ " " ++ str_zfill (intStr h) 2) ∧
      create_vocab 4 13 = "04 13" := by
  constructor
  · intro d h hd0 hd6 hh0 hh23
    have hpad : ∀ v : ℤ, 0 ≤ v → v ≤ 23 →
        pad_two_conditional v = str_zfill (intStr v) 2 := by
      intro v h0 h23
      interval_cases v <;> with_unfolding_all decide
    unfold create_vocab
    rw [hpad d hd0 (by omega), hpad h hh0 hh23]
  · with_unfolding_all decide

/-- Witness for C6 at `day_of_week = 4`, `hour = 13`. -/
theorem C6_vocab_token_format_witness :
    create_vocab 4 13 = str_zfill (intStr 4) 2 ++ " " ++ str_zfill (intStr 13) 2 :=
  C6_vocab_token_format.1 4 13 (by decide) (by decide) (by decide) (by decide)

/-- C10: on `0 ≤ v ≤ 23` the conditional padding of `create_vocab`
(prefix `"0"` when `v < 10`, else the plain decimal string) coincides with
casting to string and applying Python `str.zfill(2)`, which is the
unavailable built-in it replaces. -/
theorem C10_pad_refines_zfill (v : ℤ) (h0 : 0 ≤ v) (h23 : v ≤ 23) :
    pad_two_conditional v = str_zfill (intStr v) 2 := by
  interval_cases v <;> with_unfolding_all decide

/-- Witness for C10 at `v = 13`. -/
theorem C10_pad_refines_zfill_witness :
    ((0 : ℤ) ≤ 13 ∧ (13 : ℤ) ≤ 23) ∧
      pad_two_conditional 13 = str_zfill (intStr 13) 2 :=
  ⟨⟨by decide, by decide⟩, C10_pad_refines_zfill 13 (by decide) (by decide)⟩

/-! Section: Pipeline construction (`create_timestamp_feature_pipeline`) and
`RawToVocab.fit` -/

/-- One step of the sklearn `Pipeline` assembled by
`create_timestamp_feature_pipeline` (lines 279-298). -/
inductive PipelineStep where
  | timestamp_features
  | binning (minutes : ℕ)
  | vocab_creation
deriving DecidableEq, Repr

/-- Model of `create_timestamp_feature_pipeline` (lines 242-298): validates the
configuration and assembles the list of steps.  Raising `ValueError` is
modelled as `Except.error` carrying the message; the function receives no
input data, so the check happens before any row can be processed. -/
def create_timestamp_feature_pipeline (discretize : Bool) (minutes : ℕ)
    (createVocabFlag : Bool) : Except String (List PipelineStep) :=
  if createVocabFlag && !discretize then
    Except.error "Cannot create vocab without discretizing."
  else
    Except.ok
      ([PipelineStep.timestamp_features] ++
        (if discretize then [PipelineStep.binning minutes] else []) ++
        (if createVocabFlag then [PipelineStep.vocab_creation] else []))

/-- C7: requesting vocabulary-token creation with discretization disabled
makes `create_timestamp_feature_pipeline` raise
`ValueError("Cannot create vocab without discretizing.")` at construction
time — the constructor takes no input rows, so no row is ever processed —
and these are the only configurations that error. -/
theorem C7_vocab_without_discretize_errors (minutes : ℕ) :
    create_timestamp_feature_pipeline false minutes true =
        Except.error "Cannot create vocab without discretizing." ∧
      ∀ discretize createVocabFlag : Bool,
        (create_timestamp_feature_pipeline discretize minutes createVocabFlag).isOk =
          !(createVocabFlag && !discretize) := by
  refine ⟨rfl, ?_⟩
  intro discretize createVocabFlag
  cases discretize <;> cases createVocabFlag <;> rfl

/-- How `additional_groups` is supplied to `RawToVocab`: absent (`None`),
a Python `list` of column names, or a value of any other type (e.g. a
single string or a tuple), remembered by its type name. -/
inductive GroupsArg where
  | noneArg
  | listArg (gs : List String)
  | otherArg (typeName : String)
deriving DecidableEq, Repr

/-- A table-touching operation performed by `RawToVocab.fit`/`transform`.
`featuresFit` is `self.features.fit(X)` (line 536): an sklearn `Pipeline`
fit, which fit-transforms every intermediate step, hence runs the
timestamp-feature (and binning/vocab) table operations on `X`. -/
inductive TableOp where
  | featuresFit
  | aggregationTransform
  | widenTransform
deriving DecidableEq, Repr

/-- Model of `RawToVocab.fit` (lines 527-565), with the list of table operations it
executes recorded alongside the result.  Source order: build and fit the
feature pipeline (lines 530-536), then check that `additional_groups` is a
`list` (lines 539-543), then extend the grouping keys (lines 545-550) and
set up the aggregation and (if `widen`) the `LongToWide` step, neither of
which touches `X` during fit.  The fitted state is the frozen grouping-key
list. -/
def RawToVocab_fit (id_col : String) (minutes : ℕ) (as_multiindex : Bool)
    (additional_groups : GroupsArg) :
    List TableOp × Except String (List String) :=
  match create_timestamp_feature_pipeline true minutes (!as_multiindex) with
  | Except.error e => ([], Except.error e)
  | Except.ok _ =>
    match additional_groups with
    | GroupsArg.otherArg typeName =>
      ([TableOp.featuresFit],
        Except.error ("additional_groups should be list not " ++ typeName))
    | GroupsArg.noneArg =>
      ([TableOp.featuresFit],
        Except.ok ([id_col] ++
          (if as_multiindex then ["day_of_week", "hour"] else ["vocab"])))
    | GroupsArg.listArg gs =>
      ([TableOp.featuresFit],
        Except.ok ([id_col] ++ gs ++
          (if as_multiindex then ["day_of_week", "hour"] else ["vocab"])))

/-- C8 counterexample: with `additional_groups` supplied as a non-list
(here a tuple), `RawToVocab.fit` does raise the configuration
`ValueError` and never coerces — but only *after* `self.features.fit(X)`
has run the timestamp-feature table operations on the input, so the error
is not raised "before any table operation runs". -/
theorem C8_counterexample :
    (RawToVocab_fit "id" 60 true (GroupsArg.otherArg "tuple")).2 =
        Except.error "additional_groups should be list not tuple" ∧
      (RawToVocab_fit "id" 60 true (GroupsArg.otherArg "tuple")).1 ≠ [] := by
  constructor
  · rfl
  · intro h
    simp [RawToVocab_fit, create_timestamp_feature_pipeline] at h

/-- C8 (amended): for every configuration in which `additional_groups` is
supplied as something other than a `list`, `RawToVocab.fit` fails with
`ValueError("additional_groups should be list not <type>")` — at fit time,
never returning a coerced grouping-key list — but the check runs after the
timestamp-feature sub-pipeline has been fitted on the input, so exactly
the feature-extraction table operation precedes the error (no aggregation
or widening ever runs). -/
theorem C8_nonlist_groups_error (id_col typeName : String) (minutes : ℕ)
    (as_multiindex : Bool) :
    RawToVocab_fit id_col minutes as_multiindex (GroupsArg.otherArg typeName) =
      ([TableOp.featuresFit],
        Except.error ("additional_groups should be list not " ++ typeName)) := by
  cases as_multiindex <;> rfl

/-! Section: Aggregation (`aggregate_vocab`) and widening (`LongToWide`) -/

/-- Distinct keys of a list in order of first appearance, with an
accumulator of keys already emitted.  This is the row identity produced by
`group_by(groups)`. -/
def uniqueKeysAux {K : Type} [DecidableEq K] (seen : List K) : List K → List K
  | [] => []
  | k :: ks =>
    if k ∈ seen then uniqueKeysAux seen ks else k :: uniqueKeysAux (k :: seen) ks

/-- Distinct keys of a list, in order of first appearance. -/
def uniqueKeys {K : Type} [DecidableEq K] (l : List K) : List K :=
  uniqueKeysAux [] l

/-- Number of occurrences of a key. -/
def keyCount {K : Type} [DecidableEq K] (rows : List K) (k : K) : ℕ :=
  (rows.filter fun x => decide (x = k)).length

/-- Model of `X.with_columns(num_events=nw.lit(1))` (line 311): tag every row with
the constant `1`. -/
def with_num_events {K : Type} (rows : List K) : List (K × ℕ) :=
  rows.map fun k => (k, 1)

/-- Model of `aggregate_vocab` (lines 301-320) in the `cols=None` case used by the
claims (the `stats` list is empty): tag each row with `num_events = 1`,
group by the grouping-key tuple `K`, and sum `num_events` within each
group.  `maybe_set_index` only moves the keys into the index and does not
change the values. -/
def aggregate_vocab {K : Type} [DecidableEq K] (rows : List K) : List (K × ℕ) :=
  (uniqueKeys rows).map fun k =>
    (k, (((with_num_events rows).filter fun p => decide (p.1 = k)).map fun p => p.2).sum)

/-- One raw event row: an id-column value and a timestamp-column value. -/
structure Event (α : Type) where
  id : α
  ts : Timestamp
deriving DecidableEq, Repr

/-- Model of `raw_to_aggregate` (lines 404-492) with no `additional_groups` and no
`cols`: timestamp features, hour discretization, vocab creation, then
`aggregate_vocab` grouped by `[id_col, "day_of_week", "hour"]`.  The
`vocab` string column created on lines 481-485 is not among the grouping
keys, so `group_by` drops it and it does not appear in the result; the
grouping-key tuple is `(id, (day_of_week, hour))`. -/
def raw_to_aggregate {α : Type} [DecidableEq α] (minutes : ℕ)
    (events : List (Event α)) : List ((α × ℤ × ℚ) × ℕ) :=
  aggregate_vocab
    (events.map fun e =>
      (e.id, day_of_week_of e.ts, create_discretized_hour minutes (hour_of e.ts)))

/-- First row of the aggregated table whose grouping key equals `k`, if
any — the cell addressing used by `unstack`. -/
def assocLookup {K : Type} [DecidableEq K] (X : List (K × ℕ)) (k : K) : Option ℕ :=
  (X.find? fun r => decide (r.1 = k)).map fun r => r.2

/-- The distinct tokens observed in the long table: the column labels
produced by `unstack(level=...)` before reindexing. -/
def unstackTokens {G T : Type} [DecidableEq T] (X : List ((G × T) × ℕ)) : List T :=
  uniqueKeys (X.map fun r => r.1.2)

/-- The distinct group keys of the long table: the row identity kept by
`unstack`. -/
def unstackGroups {G T : Type} [DecidableEq G] (X : List ((G × T) × ℕ)) : List G :=
  uniqueKeys (X.map fun r => r.1.1)

/-- Model of `LongToWide.transform` (lines 386-398): select the `num_events`
column, unstack the trailing token level(s) into columns, reindex the
columns against the full vocabulary `vocab` (dropping stray tokens and
inserting missing ones), fill the holes with 0, and cast to int (counts
are already integers here).  A cell `(g, t)` holds the aggregated value
when token `t` was observed for group `g`, and the `fillna` value 0 when
the reindex inserted the column or the group has no such token. -/
def LongToWide_transform {G T : Type} [DecidableEq G] [DecidableEq T]
    (vocab : List T) (X : List ((G × T) × ℕ)) : List (G × List ℕ) :=
  (unstackGroups X).map fun g =>
    (g, vocab.map fun t =>
      if t ∈ unstackTokens X then (assocLookup X (g, t)).getD 0 else 0)

/-- Modelled from the spec: the slot values of the full vocabulary for a
bin width of `minutes` minutes.  `create_full_vocab` lives in
`latent_calendar/const.py`, which is missing from `src/`; spec §3 defines
the full vocabulary as all `7 × (1440/minutes)` tokens, and §4.3 makes the
discretized hour of slot `s` the bin start `s * minutes / 60`. -/
def full_vocab_slots (minutes : ℕ) : List ℚ :=
  (List.range (1440 / minutes)).map fun s : ℕ => ((s : ℚ) * (minutes : ℚ)) / 60

/-- Modelled from the spec: `create_full_vocab` from
`latent_calendar/const.py` (missing from `src/`), structured
(`as_multiindex=True`) form: the deterministic, data-independent
enumeration of all `(day_of_week, hour-bin-start)` pairs, days-major
(spec §3, "Full vocabulary"). -/
def create_full_vocab (minutes : ℕ) : List (ℤ × ℚ) :=
  (((List.range DAYS_IN_WEEK).map fun d : ℕ => (d : ℤ))).flatMap fun d : ℤ =>
    (full_vocab_slots minutes).map fun h : ℚ => (d, h)

/-- Model of `RawToVocab.transform` (lines 567-574) with `widen=True` and
`as_multiindex=True`: features and aggregation (`raw_to_aggregate`
semantics), then `LongToWide` against the full vocabulary. -/
def RawToVocab_transform {α : Type} [DecidableEq α] (minutes : ℕ)
    (events : List (Event α)) : List (α × List ℕ) :=
  LongToWide_transform (create_full_vocab minutes) (raw_to_aggregate minutes events)

/-- Sum of all cells of a wide matrix. -/
def wide_total {G : Type} (rows : List (G × List ℕ)) : ℕ :=
  (rows.map fun r => r.2.sum).sum

/-! Section: Claim C1 -/

/-- The four events of the scenario: Friday (native weekday 5) 12:00 and
13:55 for id 1, Friday 14:05 and 14:55 for id 2. -/
def eventsC1 : List (Event ℕ) :=
  [⟨1, ⟨5, 12, 0, 0, 0⟩⟩, ⟨1, ⟨5, 13, 55, 0, 0⟩⟩,
    ⟨2, ⟨5, 14, 5, 0, 0⟩⟩, ⟨2, ⟨5, 14, 55, 0, 0⟩⟩]

/-- C1: on the four scenario events, `raw_to_aggregate` with `minutes=60`
grouped by id produces exactly the rows `(1, dow 4, hour 12) ↦ 1`,
`(1, dow 4, hour 13) ↦ 1` and `(2, dow 4, hour 14) ↦ 2`, and no others. -/
theorem C1_raw_to_aggregate_scenario :
    raw_to_aggregate 60 eventsC1 =
      [((1, 4, 12), 1), ((1, 4, 13), 1), ((2, 4, 14), 2)] := by
  with_unfolding_all decide

/-! Section: List helper lemmas -/

theorem sum_map_zero {A : Type} (l : List A) : (l.map fun _ => (0 : ℕ)).sum = 0 := by
  induction l with
  | nil => rfl
  | cons a l ih => simp [ih]

theorem sum_map_add {A : Type} (l : List A) (f g : A → ℕ) :
    (l.map fun x => f x + g x).sum = (l.map f).sum + (l.map g).sum := by
  induction l with
  | nil => rfl
  | cons a l ih => simp [ih]; omega

theorem sum_ones {A : Type} (l : List A) : (l.map fun _ => (1 : ℕ)).sum = l.length := by
  induction l with
  | nil => rfl
  | cons a l ih => simp [ih]; omega

theorem sum_map_const {A : Type} (l : List A) (c : ℕ) :
    (l.map fun _ => c).sum = l.length * c := by
  induction l with
  | nil => simp
  | cons a l ih => simp [ih]; ring

theorem indicator_sum_zero {T : Type} [DecidableEq T] (l : List T) (t0 : T) (c : ℕ)
    (h : t0 ∉ l) : (l.map fun t => if t = t0 then c else 0).sum = 0 := by
  induction l with
  | nil => rfl
  | cons a l ih =>
    simp only [List.mem_cons, not_or] at h
    simp [Ne.symm h.1, ih h.2]

theorem indicator_sum {T : Type} [DecidableEq T] (l : List T) (t0 : T) (c : ℕ)
    (hn : l.Nodup) (hm : t0 ∈ l) : (l.map fun t => if t = t0 then c else 0).sum = c := by
  induction l with
  | nil => cases hm
  | cons a l ih =>
    rw [List.nodup_cons] at hn
    rcases List.mem_cons.mp hm with rfl | hm'
    · simp [indicator_sum_zero l t0 c hn.1]
    · have hne : a ≠ t0 := fun h => hn.1 (h ▸ hm')
      simp [hne, ih hn.2 hm']


theorem mem_uniqueKeysAux {K : Type} [DecidableEq K] (l : List K) :
    ∀ (seen : List K) (a : K), a ∈ uniqueKeysAux seen l ↔ a ∈ l ∧ a ∉ seen := by
  induction l with
  | nil => simp [uniqueKeysAux]
  | cons k ks ih =>
    intro seen a
    unfold uniqueKeysAux
    by_cases hk : k ∈ seen
    · rw [if_pos hk, ih]
      constructor
      · rintro ⟨h1, h2⟩
        exact ⟨List.mem_cons_of_mem _ h1, h2⟩
      · rintro ⟨h1, h2⟩
        rcases List.mem_cons.mp h1 with rfl | h1
        · exact absurd hk h2
        · exact ⟨h1, h2⟩
    · rw [if_neg hk]
      constructor
      · intro h
        rcases List.mem_cons.mp h with rfl | h
        · exact ⟨List.mem_cons_self _ _, hk⟩
        · rcases (ih _ _).mp h with ⟨h1, h2⟩
          simp only [List.mem_cons, not_or] at h2
          exact ⟨List.mem_cons_of_mem _ h1, h2.2⟩
      · rintro ⟨h1, h2⟩
        by_cases hak : a = k
        · exact hak ▸ List.mem_cons_self _ _
        · rcases List.mem_cons.mp h1 with rfl | h1
          · exact absurd rfl hak
          · exact List.mem_cons_of_mem _ ((ih _ _).mpr ⟨h1, by
              simp only [List.mem_cons, not_or]
              exact ⟨hak, h2⟩⟩)

theorem mem_uniqueKeys {K : Type} [DecidableEq K] (l : List K) (a : K) :
    a ∈ uniqueKeys l ↔ a ∈ l := by
  rw [uniqueKeys, mem_uniqueKeysAux]
  simp

theorem nodup_uniqueKeysAux {K : Type} [DecidableEq K] (l : List K) :
    ∀ seen : List K, (uniqueKeysAux seen l).Nodup := by
  induction l with
  | nil => intro seen; simp [uniqueKeysAux]
  | cons k ks ih =>
    intro seen
    unfold uniqueKeysAux
    by_cases hk : k ∈ seen
    · rw [if_pos hk]; exact ih seen
    · rw [if_neg hk, List.nodup_cons]
      refine ⟨fun h => ?_, ih _⟩
      rcases (mem_uniqueKeysAux ks _ k).mp h with ⟨-, h2⟩
      exact h2 (List.mem_cons_self _ _)

theorem nodup_uniqueKeys {K : Type} [DecidableEq K] (l : List K) :
    (uniqueKeys l).Nodup :=
  nodup_uniqueKeysAux l []

theorem keyCount_cons {K : Type} [DecidableEq K] (k j : K) (ks : List K) :
    keyCount (k :: ks) j = (if k = j then 1 else 0) + keyCount ks j := by
  unfold keyCount
  rw [List.filter_cons]
  by_cases h : k = j
  · simp [h]; omega
  · simp [h]

theorem keyCount_filter_split {K : Type} [DecidableEq K] (k : K) (seen : List K)
    (hk : k ∉ seen) (ks : List K) :
    keyCount ks k + (ks.filter fun x => decide (x ∉ k :: seen)).length =
      (ks.filter fun x => decide (x ∉ seen)).length := by
  induction ks with
  | nil => rfl
  | cons x ks' ih =>
    rw [keyCount_cons, List.filter_cons, List.filter_cons]
    by_cases hxk : x = k
    · subst hxk
      have h1 : (decide (x ∉ x :: seen)) = false := by simp
      have h2 : (decide (x ∉ seen)) = true := by simp [hk]
      simp only [h1, h2, Bool.false_eq_true, if_false, if_pos rfl, eq_self_iff_true, if_true, List.length_cons]
      omega
    · by_cases hxs : x ∈ seen
      · have h1 : (decide (x ∉ k :: seen)) = false := by simp [hxs]
        have h2 : (decide (x ∉ seen)) = false := by simp [hxs]
        simp only [h1, h2, Bool.false_eq_true, if_false, if_neg hxk, eq_self_iff_true, if_true]
        omega
      · have h1 : (decide (x ∉ k :: seen)) = true := by simp [hxk, hxs]
        have h2 : (decide (x ∉ seen)) = true := by simp [hxs]
        simp only [h1, h2, if_pos rfl, if_neg hxk, eq_self_iff_true, if_true, List.length_cons]
        omega

theorem sum_keyCount_uniqueKeysAux {K : Type} [DecidableEq K] :
    ∀ (l seen : List K),
      ((uniqueKeysAux seen l).map fun k => keyCount l k).sum =
        (l.filter fun x => decide (x ∉ seen)).length := by
  intro l
  induction l with
  | nil => intro seen; rfl
  | cons k ks ih =>
    intro seen
    unfold uniqueKeysAux
    by_cases hk : k ∈ seen
    · rw [if_pos hk]
      have hcong : ∀ j ∈ uniqueKeysAux seen ks, keyCount (k :: ks) j = keyCount ks j := by
        intro j hj
        rcases (mem_uniqueKeysAux ks seen j).mp hj with ⟨-, hjs⟩
        have hne : k ≠ j := fun h => hjs (h ▸ hk)
        rw [keyCount_cons, if_neg hne]
        omega
      rw [List.map_congr_left hcong, ih seen, List.filter_cons]
      have h1 : (decide (k ∉ seen)) = false := by simp [hk]
      rw [h1]
      simp
    · rw [if_neg hk, List.map_cons, List.sum_cons]
      have hcong : ∀ j ∈ uniqueKeysAux (k :: seen) ks,
          keyCount (k :: ks) j = keyCount ks j := by
        intro j hj
        rcases (mem_uniqueKeysAux ks _ j).mp hj with ⟨-, hjs⟩
        have hne : k ≠ j := fun h => hjs (h ▸ List.mem_cons_self _ _)
        rw [keyCount_cons, if_neg hne]
        omega
      rw [List.map_congr_left hcong, ih (k :: seen), List.filter_cons, keyCount_cons,
        if_pos rfl]
      have hsplit := keyCount_filter_split k seen hk ks
      have h2 : (decide (k ∉ seen)) = true := by simp [hk]
      rw [h2]
      simp only [if_pos rfl, eq_self_iff_true, if_true, List.length_cons]
      omega

theorem sum_keyCount_uniqueKeys {K : Type} [DecidableEq K] (l : List K) :
    ((uniqueKeys l).map fun k => keyCount l k).sum = l.length := by
  rw [uniqueKeys, sum_keyCount_uniqueKeysAux]
  have : ∀ x : K, (decide (x ∉ ([] : List K))) = true := by simp
  rw [List.filter_congr fun x _ => this x]
  simp

/-! Section: Aggregation lemmas -/

theorem aggregate_vocab_value {K : Type} [DecidableEq K] (rows : List K) (k : K) :
    (((with_num_events rows).filter fun p => decide (p.1 = k)).map fun p => p.2).sum =
      keyCount rows k := by
  induction rows with
  | nil => rfl
  | cons r rows' ih =>
    unfold with_num_events at ih ⊢
    rw [List.map_cons, List.filter_cons, keyCount_cons]
    by_cases h : r = k
    · have h1 : (decide (((r, 1) : K × ℕ).1 = k)) = true := by simp [h]
      rw [h1, if_pos rfl, List.map_cons, List.sum_cons, ih, if_pos h]
    · have h1 : (decide (((r, 1) : K × ℕ).1 = k)) = false := by simp [h]
      rw [h1]
      simp only [Bool.false_eq_true, if_false, if_neg h, ih]
      omega

theorem aggregate_vocab_keys {K : Type} [DecidableEq K] (rows : List K) :
    (aggregate_vocab rows).map (fun r => r.1) = uniqueKeys rows := by
  unfold aggregate_vocab
  rw [List.map_map]
  exact List.map_id _

theorem aggregate_vocab_total {K : Type} [DecidableEq K] (rows : List K) :
    ((aggregate_vocab rows).map fun r => r.2).sum = rows.length := by
  unfold aggregate_vocab
  rw [List.map_map]
  have hcong : ∀ k ∈ uniqueKeys rows,
      ((fun r : K × ℕ => r.2) ∘ fun k =>
        (k, (((with_num_events rows).filter fun p => decide (p.1 = k)).map
          fun p => p.2).sum)) k = keyCount rows k := by
    intro k hk
    exact aggregate_vocab_value rows k
  rw [List.map_congr_left hcong, sum_keyCount_uniqueKeys]

theorem mem_aggregate_vocab_key {K : Type} [DecidableEq K] (rows : List K)
    (r : K × ℕ) (hr : r ∈ aggregate_vocab rows) : r.1 ∈ rows := by
  unfold aggregate_vocab at hr
  rcases List.mem_map.mp hr with ⟨k, hk, rfl⟩
  exact (mem_uniqueKeys rows k).mp hk

/-! Section: `LongToWide` lemmas -/

theorem assocLookup_eq_none {K : Type} [DecidableEq K] (X : List (K × ℕ)) (k : K)
    (h : k ∉ X.map fun r => r.1) : assocLookup X k = none := by
  unfold assocLookup
  rw [List.find?_eq_none.mpr]
  · rfl
  · intro r hr
    simp only [decide_eq_true_eq]
    intro hrk
    exact h (List.mem_map.mpr ⟨r, hr, hrk⟩)

theorem assocLookup_cons_getD {K : Type} [DecidableEq K] (r : K × ℕ) (X : List (K × ℕ))
    (hr : r.1 ∉ X.map fun s => s.1) (k : K) :
    (assocLookup (r :: X) k).getD 0 =
      (assocLookup X k).getD 0 + (if k = r.1 then r.2 else 0) := by
  by_cases h : r.1 = k
  · subst h
    unfold assocLookup
    rw [List.find?_cons_of_pos _ (by simp)]
    have hn : List.find? (fun s : K × ℕ => decide (s.1 = r.1)) X = none := by
      rw [List.find?_eq_none]
      intro s hs
      simp only [decide_eq_true_eq]
      exact fun hsk => hr (List.mem_map.mpr ⟨s, hs, hsk⟩)
    rw [hn, if_pos rfl]
    simp
  · unfold assocLookup
    rw [List.find?_cons_of_neg _ (by simp [h])]
    rw [if_neg (fun hk => h hk.symm)]
    omega

theorem LongToWide_transform_eq {G T : Type} [DecidableEq G] [DecidableEq T]
    (vocab : List T) (X : List ((G × T) × ℕ)) :
    LongToWide_transform vocab X =
      (unstackGroups X).map fun g =>
        (g, vocab.map fun t => (assocLookup X (g, t)).getD 0) := by
  unfold LongToWide_transform
  apply List.map_congr_left
  intro g hg
  refine congrArg (fun c => (g, c)) ?_
  apply List.map_congr_left
  intro t ht
  by_cases hmem : t ∈ unstackTokens X
  · rw [if_pos hmem]
  · rw [if_neg hmem, assocLookup_eq_none]
    · rfl
    · intro hk
      rcases List.mem_map.mp hk with ⟨r, hr, hrk⟩
      apply hmem
      rw [unstackTokens, mem_uniqueKeys]
      exact List.mem_map.mpr ⟨r, hr, congrArg Prod.snd hrk⟩

theorem double_sum_lookup {G T : Type} [DecidableEq G] [DecidableEq T]
    (Gs : List G) (vocab : List T) :
    ∀ X : List ((G × T) × ℕ),
      Gs.Nodup → vocab.Nodup → ((X.map fun r => r.1).Nodup) →
      (∀ r ∈ X, r.1.1 ∈ Gs) → (∀ r ∈ X, r.1.2 ∈ vocab) →
      (Gs.map fun g => (vocab.map fun t => (assocLookup X (g, t)).getD 0).sum).sum =
        (X.map fun r => r.2).sum := by
  intro X
  induction X with
  | nil =>
    intro _ _ _ _ _
    have hz : ∀ g : G, (vocab.map fun t => ((assocLookup [] ((g, t) : G × T)).getD 0)).sum = 0 := by
      intro g
      have : ∀ t ∈ vocab, ((assocLookup [] ((g, t) : G × T)).getD 0) = 0 := by
        intro t _
        rfl
      rw [List.map_congr_left this, sum_map_zero]
    rw [List.map_congr_left fun g _ => hz g, sum_map_zero]
    rfl
  | cons r X' ih =>
    intro hG hv hkeys hmG hmT
    rw [List.map_cons, List.nodup_cons] at hkeys
    have hcell := assocLookup_cons_getD r X' hkeys.1
    have hrow : ∀ g, (vocab.map fun t => (assocLookup (r :: X') (g, t)).getD 0).sum =
        (vocab.map fun t => (assocLookup X' (g, t)).getD 0).sum +
          (if g = r.1.1 then r.2 else 0) := by
      intro g
      have hmap : ∀ t ∈ vocab, (assocLookup (r :: X') (g, t)).getD 0 =
          (assocLookup X' (g, t)).getD 0 + (if (g, t) = r.1 then r.2 else 0) := by
        intro t _
        exact hcell (g, t)
      rw [List.map_congr_left hmap, sum_map_add]
      by_cases hg : g = r.1.1
      · have hind : ∀ t ∈ vocab, (if ((g, t) : G × T) = r.1 then r.2 else 0) =
            (if t = r.1.2 then r.2 else 0) := by
          intro t _
          by_cases ht : t = r.1.2
          · rw [if_pos ht, if_pos (by rw [hg, ht])]
          · rw [if_neg ht, if_neg (fun hc => ht (congrArg Prod.snd hc))]
        rw [List.map_congr_left hind,
          indicator_sum vocab r.1.2 r.2 hv (hmT r (List.mem_cons_self _ _)), if_pos hg]
      · have hind : ∀ t ∈ vocab, (if ((g, t) : G × T) = r.1 then r.2 else 0) = 0 := by
          intro t _
          rw [if_neg (fun hc => hg (congrArg Prod.fst hc))]
        rw [List.map_congr_left hind, sum_map_zero, if_neg hg]
    rw [List.map_congr_left fun g _ => hrow g, sum_map_add,
      indicator_sum Gs r.1.1 r.2 hG (hmG r (List.mem_cons_self _ _)),
      ih hG hv hkeys.2 (fun s hs => hmG s (List.mem_cons_of_mem _ hs))
        (fun s hs => hmT s (List.mem_cons_of_mem _ hs)),
      List.map_cons, List.sum_cons]
    omega

/-! Section: Full-vocabulary lemmas -/

theorem length_flatMap_const {A B : Type} (la : List A) (f : A → List B) (n : ℕ)
    (h : ∀ a ∈ la, (f a).length = n) : (la.flatMap f).length = la.length * n := by
  induction la with
  | nil => simp
  | cons a l ih =>
    rw [List.flatMap_cons, List.length_append, h a (List.mem_cons_self _ _),
      ih fun b hb => h b (List.mem_cons_of_mem _ hb)]
    simp [Nat.succ_mul]
    omega

theorem create_full_vocab_length (minutes : ℕ) :
    (create_full_vocab minutes).length = 7 * (1440 / minutes) := by
  unfold create_full_vocab
  rw [length_flatMap_const _ _ (1440 / minutes) fun a _ => by
    rw [List.length_map]
    unfold full_vocab_slots
    rw [List.length_map, List.length_range]]
  rw [List.length_map, List.length_range]
  rfl

theorem full_vocab_slots_nodup (minutes : ℕ) (h1 : 1 ≤ minutes) :
    (full_vocab_slots minutes).Nodup := by
  unfold full_vocab_slots
  have hm : ((minutes : ℚ)) ≠ 0 := by
    have : (1 : ℚ) ≤ (minutes : ℚ) := by exact_mod_cast h1
    linarith
  refine (List.nodup_range _).map ?_
  intro a b hab
  field_simp at hab
  rcases hab with h | h
  · exact_mod_cast h
  · omega

theorem nodup_flatMap_pairs {A B : Type} [DecidableEq A] [DecidableEq B] :
    ∀ (la : List A) (lb : List B), la.Nodup → lb.Nodup →
      (la.flatMap fun a => lb.map fun b => ((a, b) : A × B)).Nodup := by
  intro la lb
  induction la with
  | nil => intro _ _; simp
  | cons a la' ih =>
    intro hla hlb
    rw [List.nodup_cons] at hla
    rw [List.flatMap_cons, List.nodup_append]
    refine ⟨hlb.map fun b1 b2 hb => congrArg Prod.snd hb, ih hla.2 hlb, ?_⟩
    intro x hx1 hx2
    rcases List.mem_map.mp hx1 with ⟨b, hb, rfl⟩
    rcases List.mem_flatMap.mp hx2 with ⟨a', ha', hx⟩
    rcases List.mem_map.mp hx with ⟨b', hb', heq⟩
    have : a' = a := congrArg Prod.fst heq
    exact hla.1 (this ▸ ha')

theorem create_full_vocab_nodup (minutes : ℕ) (h1 : 1 ≤ minutes) :
    (create_full_vocab minutes).Nodup := by
  unfold create_full_vocab
  refine nodup_flatMap_pairs _ _ ?_ (full_vocab_slots_nodup minutes h1)
  exact (List.nodup_range _).map fun a b hab => Nat.cast_injective hab

/-! Section: Claim C2 -/

/-- C2: for every input long table `X` (including the empty one), every
`minutes`, and both the structured and the flat column scheme — expressed
by an arbitrary rendering `render` of the `(day, slot)` enumeration, with
`render = id` for structured columns and a token-string rendering for flat
ones — `LongToWide.transform` produces rows whose value cells are indexed
exactly by the `7 × (1440/minutes)`-element full vocabulary in its fixed
order: the cell at vocabulary entry `p` is the aggregated count when
`(row key, p)` was observed and the fill value 0 otherwise, so observed
tokens outside the vocabulary are dropped and the column set and order
depend only on the configuration, never on the data. -/
theorem C2_wide_columns {G T : Type} [DecidableEq G] [DecidableEq T]
    (render : ℤ × ℚ → T) (minutes : ℕ) (X : List ((G × T) × ℕ)) :
    ((create_full_vocab minutes).map render).length = 7 * (1440 / minutes) ∧
      ∀ row ∈ LongToWide_transform ((create_full_vocab minutes).map render) X,
        row.2 = (create_full_vocab minutes).map
          fun p => (assocLookup X (row.1, render p)).getD 0 := by
  constructor
  · rw [List.length_map, create_full_vocab_length]
  · intro row hrow
    rw [LongToWide_transform_eq] at hrow
    rcases List.mem_map.mp hrow with ⟨g, hg, rfl⟩
    dsimp only
    rw [List.map_map]
    rfl

/-- Witness for C2: `minutes = 1440` (one slot per day, 7 columns),
structured rendering, and a one-row long table observing `(4, 0)` for
group 1 with count 2. -/
theorem C2_wide_columns_witness :
    ((create_full_vocab 1440).map (fun p => p)).length = 7 * (1440 / 1440) ∧
      (((1 : ℕ), ([0, 0, 0, 0, 2, 0, 0] : List ℕ)) : ℕ × List ℕ).2 =
        (create_full_vocab 1440).map
          fun p => (assocLookup [(((1 : ℕ), ((4 : ℤ), (0 : ℚ))), 2)]
            ((((1 : ℕ), ([0, 0, 0, 0, 2, 0, 0] : List ℕ)) : ℕ × List ℕ).1,
              (fun p => p) p)).getD 0 :=
  ⟨(C2_wide_columns (fun p => p) 1440 [(((1 : ℕ), ((4 : ℤ), (0 : ℚ))), 2)]).1,
    (C2_wide_columns (fun p => p) 1440 [(((1 : ℕ), ((4 : ℤ), (0 : ℚ))), 2)]).2
      (((1 : ℕ), ([0, 0, 0, 0, 2, 0, 0] : List ℕ)))
      (by with_unfolding_all decide)⟩

/-! Section: Claim C3 -/

theorem hour_of_nonneg (t : Timestamp) : 0 ≤ hour_of t := by
  unfold hour_of prop_into_day
  positivity

theorem hour_of_lt (t : Timestamp) (hv : t.Valid) : hour_of t < 24 := by
  obtain ⟨-, -, h3, h4, h5, h6⟩ := hv
  have c3 : (t.hour : ℚ) ≤ 23 := by exact_mod_cast h3
  have c4 : (t.minute : ℚ) ≤ 59 := by exact_mod_cast h4
  have c5 : (t.second : ℚ) ≤ 59 := by exact_mod_cast h5
  have c6 : (t.microsecond : ℚ) ≤ 999999 := by exact_mod_cast h6
  unfold hour_of prop_into_day HOURS_IN_DAY MINUTES_IN_DAY SECONDS_IN_DAY
    MICROSECONDS_IN_DAY
  push_cast
  linarith

/-- Every valid timestamp's `(day_of_week, discretized hour)` pair lands
in the full vocabulary, provided `minutes` divides 1440 (so the slot
enumeration covers the whole day). -/
theorem token_mem_create_full_vocab (minutes : ℕ) (h1 : 1 ≤ minutes)
    (h2 : minutes ∣ 1440) (t : Timestamp) (hv : t.Valid) :
    ((day_of_week_of t, create_discretized_hour minutes (hour_of t)) : ℤ × ℚ)
      ∈ create_full_vocab minutes := by
  have hm0 : (0 : ℚ) < (minutes : ℚ) := by
    have : (1 : ℚ) ≤ (minutes : ℚ) := by exact_mod_cast h1
    linarith
  unfold create_full_vocab
  rw [List.mem_flatMap]
  refine ⟨day_of_week_of t, ?_, ?_⟩
  · rw [List.mem_map]
    refine ⟨t.weekday - 1, ?_, ?_⟩
    · rw [List.mem_range]
      have hw1 := hv.1
      have hw7 := hv.2.1
      unfold DAYS_IN_WEEK
      omega
    · unfold day_of_week_of
      have hw1 := hv.1
      omega
  · rw [List.mem_map]
    refine ⟨create_discretized_hour minutes (hour_of t), ?_, rfl⟩
    have hq0 : 0 ≤ hour_of t := hour_of_nonneg t
    have hq24 : hour_of t < 24 := hour_of_lt t hv
    rw [create_discretized_hour_eq_floor_mul, divisor_eq]
    have hd0 : (0 : ℚ) < (minutes : ℚ) / 60 := by positivity
    have hs0 : 0 ≤ ⌊hour_of t / ((minutes : ℚ) / 60)⌋ :=
      Int.floor_nonneg.mpr (div_nonneg hq0 (le_of_lt hd0))
    have hcast : ((1440 / minutes : ℕ) : ℚ) = 1440 / (minutes : ℚ) := by
      rw [Nat.cast_div h2 (ne_of_gt hm0)]
      norm_num
    have hslt : ⌊hour_of t / ((minutes : ℚ) / 60)⌋ < ((1440 / minutes : ℕ) : ℤ) := by
      apply Int.floor_lt.mpr
      rw [Int.cast_natCast, hcast, div_div_eq_mul_div, div_lt_div_iff₀ hm0 hm0]
      have h60 : hour_of t * 60 < 1440 := by linarith
      have := mul_lt_mul_of_pos_right h60 hm0
      linarith
    unfold full_vocab_slots
    rw [List.mem_map]
    refine ⟨(⌊hour_of t / ((minutes : ℚ) / 60)⌋).toNat, ?_, ?_⟩
    · rw [List.mem_range]
      omega
    · have h3 : (((⌊hour_of t / ((minutes : ℚ) / 60)⌋).toNat : ℕ) : ℚ) =
          ((⌊hour_of t / ((minutes : ℚ) / 60)⌋ : ℤ) : ℚ) := by
        exact_mod_cast congrArg (fun z : ℤ => (z : ℚ)) (Int.toNat_of_nonneg hs0)
      rw [h3]
      ring

/-- C3: for every finite event table with valid timestamps and every bin
width `minutes ≥ 1` dividing 1440 (the widths for which the spec-modelled
full vocabulary tiles the day), the sum over all cells of the
`num_events` wide matrix produced by the full pipeline (features →
discretization → aggregation → `LongToWide` with zero-filling and the
integer cast) equals the number of input event rows. -/
theorem C3_count_conservation {α : Type} [DecidableEq α] (minutes : ℕ)
    (events : List (Event α)) (h1 : 1 ≤ minutes) (h2 : minutes ∣ 1440)
    (hv : ∀ e ∈ events, e.ts.Valid) :
    wide_total (RawToVocab_transform minutes events) = events.length := by
  unfold RawToVocab_transform wide_total
  rw [LongToWide_transform_eq, List.map_map]
  have hX : raw_to_aggregate minutes events =
      aggregate_vocab (events.map fun e =>
        ((e.id, day_of_week_of e.ts,
          create_discretized_hour minutes (hour_of e.ts)) : α × ℤ × ℚ)) := rfl
  rw [hX]
  have hkeys : ((aggregate_vocab (events.map fun e =>
      ((e.id, day_of_week_of e.ts,
        create_discretized_hour minutes (hour_of e.ts)) : α × ℤ × ℚ))).map
          fun r => r.1).Nodup := by
    rw [aggregate_vocab_keys]
    exact nodup_uniqueKeys _
  have hmG : ∀ r ∈ aggregate_vocab (events.map fun e =>
      ((e.id, day_of_week_of e.ts,
        create_discretized_hour minutes (hour_of e.ts)) : α × ℤ × ℚ)),
      r.1.1 ∈ unstackGroups (aggregate_vocab (events.map fun e =>
        ((e.id, day_of_week_of e.ts,
          create_discretized_hour minutes (hour_of e.ts)) : α × ℤ × ℚ))) := by
    intro r hr
    rw [unstackGroups, mem_uniqueKeys]
    exact List.mem_map.mpr ⟨r, hr, rfl⟩
  have hmT : ∀ r ∈ aggregate_vocab (events.map fun e =>
      ((e.id, day_of_week_of e.ts,
        create_discretized_hour minutes (hour_of e.ts)) : α × ℤ × ℚ)),
      r.1.2 ∈ create_full_vocab minutes := by
    intro r hr
    have hk := mem_aggregate_vocab_key _ r hr
    rcases List.mem_map.mp hk with ⟨e, he, hkey⟩
    rw [← hkey]
    exact token_mem_create_full_vocab minutes h1 h2 e.ts (hv e he)
  have hdouble := double_sum_lookup
    (unstackGroups (aggregate_vocab (events.map fun e =>
      ((e.id, day_of_week_of e.ts,
        create_discretized_hour minutes (hour_of e.ts)) : α × ℤ × ℚ))))
    (create_full_vocab minutes)
    (aggregate_vocab (events.map fun e =>
      ((e.id, day_of_week_of e.ts,
        create_discretized_hour minutes (hour_of e.ts)) : α × ℤ × ℚ)))
    (nodup_uniqueKeys _) (create_full_vocab_nodup minutes h1) hkeys hmG hmT
  rw [show ((fun r : α × List ℕ => r.2.sum) ∘ fun g =>
      (g, (create_full_vocab minutes).map fun t =>
        (assocLookup (aggregate_vocab (events.map fun e =>
          ((e.id, day_of_week_of e.ts,
            create_discretized_hour minutes (hour_of e.ts)) : α × ℤ × ℚ)))
          (g, t)).getD 0)) =
      fun g => ((create_full_vocab minutes).map fun t =>
        (assocLookup (aggregate_vocab (events.map fun e =>
          ((e.id, day_of_week_of e.ts,
            create_discretized_hour minutes (hour_of e.ts)) : α × ℤ × ℚ)))
          (g, t)).getD 0).sum from rfl,
    hdouble, aggregate_vocab_total, List.length_map]

/-- Witness for C3: one event at Monday midnight, `minutes = 1440`. -/
theorem C3_count_conservation_witness :
    (1 ≤ 1440 ∧ 1440 ∣ 1440 ∧
        ∀ e ∈ [(⟨1, ⟨1, 0, 0, 0, 0⟩⟩ : Event ℕ)], e.ts.Valid) ∧
      wide_total (RawToVocab_transform 1440 [(⟨1, ⟨1, 0, 0, 0, 0⟩⟩ : Event ℕ)]) = 1 :=
  ⟨⟨by decide, by decide, by decide⟩,
    C3_count_conservation 1440 [(⟨1, ⟨1, 0, 0, 0, 0⟩⟩ : Event ℕ)]
      (by decide) (by decide) (by decide)⟩

/-! Section: Claim C9: the generic frame view of `create_timestamp_features` -/

/-- A dataframe cell value. -/
inductive Value where
  | int (n : ℤ)
  | rat (q : ℚ)
  | str (s : String)
  | ts (t : Timestamp)
  | null
deriving DecidableEq, Repr

/-- A dataframe: named columns and rows of cells, each row aligned with
`cols`. -/
structure Table where
  cols : List String
  rows : List (List Value)
deriving DecidableEq, Repr

/-- Cell of a row under a column name. -/
def getCell (cols : List String) (row : List Value) (name : String) : Option Value :=
  (cols.findIdx? fun c => c == name).bind fun i => row[i]?

/-- narwhals `with_columns(name=expr)` for one named expression: the
column is replaced in place when `name` already exists, else appended on
the right; the expression is evaluated per row against the frame it is
applied to. -/
def with_column (X : Table) (name : String)
    (f : List String → List Value → Value) : Table :=
  if name ∈ X.cols then
    { cols := X.cols,
      rows := X.rows.map fun r =>
        (X.cols.findIdx? fun c => c == name).elim r fun i => r.set i (f X.cols r) }
  else
    { cols := X.cols ++ [name], rows := X.rows.map fun r => r ++ [f X.cols r] }

/-- The `day_of_week` expression of `create_timestamp_features` (line 69),
evaluated on one row: `col(timestamp_col).dt.weekday() - 1`. -/
def weekday_expr (timestamp_col : String) (cols : List String)
    (row : List Value) : Value :=
  match getCell cols row timestamp_col with
  | some (Value.ts t) => Value.int (day_of_week_of t)
  | _ => Value.null

/-- The `hour` expression of `create_timestamp_features` (line 73),
evaluated on one row: `prop_into_day(col(timestamp_col).dt) * HOURS_IN_DAY`. -/
def hour_expr (timestamp_col : String) (cols : List String)
    (row : List Value) : Value :=
  match getCell cols row timestamp_col with
  | some (Value.ts t) => Value.rat (hour_of t)
  | _ => Value.null

/-- Model of `create_timestamp_features` (lines 65-74) on the frame level:
`df.with_columns(day_of_week=..., hour=...)`.  Both expressions read only
the timestamp column, so the single `with_columns` call is equivalent to
adding the two columns in sequence. -/
def create_timestamp_features (X : Table) (timestamp_col : String) : Table :=
  with_column (with_column X "day_of_week" (weekday_expr timestamp_col))
    "hour" (hour_expr timestamp_col)

theorem with_column_not_mem (X : Table) (name : String)
    (f : List String → List Value → Value) (h : name ∉ X.cols) :
    with_column X name f =
      { cols := X.cols ++ [name], rows := X.rows.map fun r => r ++ [f X.cols r] } := by
  unfold with_column
  rw [if_neg h]

/-- C9: on any table whose columns do not already contain `day_of_week`
or `hour` (and whose rows are aligned with its columns), the timestamp
feature extractor appends exactly those two columns on the right: the
column list is the old one plus `["day_of_week", "hour"]`, the row count
is unchanged (no filtering), and restricting every output row to the
original columns gives back the input rows unchanged — names, order and
values of pre-existing columns are untouched, and there is no other
effect. -/
theorem C9_timestamp_features_frame (X : Table) (tcol : String)
    (hwf : ∀ r ∈ X.rows, r.length = X.cols.length)
    (hd : "day_of_week" ∉ X.cols) (hh : "hour" ∉ X.cols) :
    (create_timestamp_features X tcol).cols = X.cols ++ ["day_of_week", "hour"] ∧
      (create_timestamp_features X tcol).rows.length = X.rows.length ∧
      (create_timestamp_features X tcol).rows.map (List.take X.cols.length) =
        X.rows := by
  have h2 : ¬ "hour" ∈ X.cols ++ ["day_of_week"] := by
    intro hmem
    rcases List.mem_append.mp hmem with h | h
    · exact hh h
    · rw [List.mem_singleton] at h
      revert h
      with_unfolding_all decide
  unfold create_timestamp_features
  rw [with_column_not_mem X _ _ hd, with_column_not_mem _ _ _ h2]
  refine ⟨?_, ?_, ?_⟩
  · rw [List.append_assoc]
    rfl
  · simp [List.length_map]
  · dsimp only
    rw [List.map_map, List.map_map]
    have hid : ∀ r ∈ X.rows,
        ((List.take X.cols.length ∘ fun r =>
            r ++ [hour_expr tcol (X.cols ++ ["day_of_week"]) r]) ∘ fun r =>
          r ++ [weekday_expr tcol X.cols r]) r = r := by
      intro r hr
      show ((r ++ [weekday_expr tcol X.cols r]) ++
          [hour_expr tcol (X.cols ++ ["day_of_week"])
            (r ++ [weekday_expr tcol X.cols r])]).take X.cols.length = r
      rw [List.append_assoc, ← hwf r hr, List.take_left]
    rw [List.map_congr_left hid]
    simp

/-- Witness for C9 on a one-column, one-row table. -/
theorem C9_timestamp_features_frame_witness :
    (create_timestamp_features ⟨["a"], [[Value.int 5]]⟩ "a").cols =
        ["a"] ++ ["day_of_week", "hour"] ∧
      (create_timestamp_features ⟨["a"], [[Value.int 5]]⟩ "a").rows.length = 1 ∧
      (create_timestamp_features ⟨["a"], [[Value.int 5]]⟩ "a").rows.map
        (List.take 1) = [[Value.int 5]] :=
  C9_timestamp_features_frame ⟨["a"], [[Value.int 5]]⟩ "a"
    (by with_unfolding_all decide) (by with_unfolding_all decide)
    (by with_unfolding_all decide)
